import Mathlib

/-!
# Verification of the Seattle-Source-Ranker incremental collection core

Shallow embedding of the incremental collection and reconciliation engine of
the repository (files `src/collectors/incremental_collector.py`,
`src/collectors/cursor_manager.py`, `src/collectors/graphql_client.py`),
together with proofs settling the spec claims about it.

Modelling conventions:
* Python `list` → `List`; Python `dict` → association list `List (String × _)`
  with Python dict semantics (assignment to an existing key updates the entry
  in place, a new key is appended at the end, `del` removes the entry,
  iteration order is insertion order).
* Python exceptions (`ValueError` from `min([])` / `list.remove`, `KeyError`
  from `d[k]`, `TypeError`/`AttributeError` from subscripting or `.get` on
  non-dicts) → `Except PyErr`.
* Machine I/O (files, HTTP) is modelled by explicit oracle values describing
  the outcome of each read/request; timestamps are ISO-8601 strings, whose
  `datetime` comparison coincides with lexicographic string comparison.
-/

namespace SSR

/-- Python exception kinds that the embedded code can raise. -/
inductive PyErr where
  | valueError
  | keyError
  | typeError
  | attributeError
  deriving Repr, DecidableEq

/-- A repository record as handled by `IncrementalProjectCollector`
(`incremental_collector.py`).  Only the fields the embedded code reads are
modelled: the unique key `name_with_owner`, the metrics `stars`, `forks`,
`watchers` used by the replace strategies, the `updated_at` timestamp used by
the `oldest` strategy, and `last_stats_update` used by the staleness filter
(`none` models a missing key, i.e. never refreshed). -/
structure Record where
  name_with_owner : String
  stars : Nat
  forks : Nat
  watchers : Nat
  updated_at : String
  last_stats_update : Option String
  deriving Repr, DecidableEq

/-- The `stats` dictionary built by `add_new_projects`
(`incremental_collector.py` line 201). -/
structure Stats where
  added : Nat
  replaced : Nat
  skipped : Nat
  updated : Nat
  deriving Repr, DecidableEq

/-- The mutable state of `IncrementalProjectCollector`: the list
`self.existing_projects` and the dict `self.existing_repos` (a name-keyed
index over the pool).  They are distinct objects in the source and are
mutated separately, so both are carried explicitly. -/
structure CollectorState where
  existing_projects : List Record
  existing_repos : List (String × Record)
  deriving Repr, DecidableEq

/-! ## Python dict / list primitives -/

/-- Python `k in d` for a dict. -/
def dictContains (d : List (String × Record)) (k : String) : Bool :=
  d.any (fun p => p.1 == k)

/-- Python `d[k]` lookup, as an `Option` (callers that would raise `KeyError`
check emptiness explicitly). -/
def dictGet? (d : List (String × Record)) (k : String) : Option Record :=
  (d.find? (fun p => p.1 == k)).map (fun p => p.2)

/-- Python `d[k] = v`: update in place if the key exists, else append. -/
def dictSet (d : List (String × Record)) (k : String) (v : Record) :
    List (String × Record) :=
  if dictContains d k then
    d.map (fun p => if p.1 == k then (k, v) else p)
  else
    d ++ [(k, v)]

/-- Python `del d[k]`: raises `KeyError` if the key is absent. -/
def dictDel (d : List (String × Record)) (k : String) :
    Except PyErr (List (String × Record)) :=
  if dictContains d k then
    .ok (d.filter (fun p => !(p.1 == k)))
  else
    .error .keyError

/-- Python `l.remove(x)`: removes the first element equal to `x`, raises
`ValueError` if none. -/
def pyListRemove (l : List Record) (x : Record) : Except PyErr (List Record) :=
  if x ∈ l then .ok (l.erase x) else .error .valueError

/-- Python `min(l, key=key)`: returns the first element attaining the minimal
key (CPython keeps the current best and replaces it only on a strictly
smaller key); `none` models the `ValueError` on an empty list. -/
def pyMin {β : Type} [LinearOrder β] (key : Record → β) :
    List Record → Option Record
  | [] => none
  | x :: xs =>
      some (xs.foldl (fun best y => if key y < key best then y else best) x)

/-- Insertion of a record into a stars-descending list, after every record
with at least as many stars (so records with equal stars keep their
original relative order). -/
def insertByStars (r : Record) : List Record → List Record
  | [] => [r]
  | x :: xs =>
      if x.stars < r.stars then r :: x :: xs else x :: insertByStars r xs

/-- `list.sort(key=lambda x: x["stars"], reverse=True)`
(`incremental_collector.py` line 239): CPython's sort is stable, and a
stable sort by a fixed key is uniquely determined as a function of the
input list, so left-to-right insertion sort computes exactly it. -/
def sortByStarsDesc (l : List Record) : List Record :=
  l.foldl (fun acc r => insertByStars r acc) []

/-! ## `IncrementalProjectCollector` methods -/

/-- `activity_score` closure used by the `lowest_activity` strategy
(`incremental_collector.py` lines 266-267). -/
def activity_score (p : Record) : Nat := p.stars + p.forks + p.watchers

/-- `IncrementalProjectCollector._should_replace`
(`incremental_collector.py` lines 252-272).  `min` over an empty pool raises
`ValueError`; an unrecognised strategy returns `False`. -/
def should_replace (existing_projects : List Record) (new_project : Record)
    (strategy : String) : Except PyErr Bool :=
  if strategy == "lowest_stars" then
    match pyMin (fun x => x.stars) existing_projects with
    | none => .error .valueError
    | some lowest => .ok (decide (lowest.stars < new_project.stars))
  else if strategy == "oldest" then
    match pyMin (fun x => x.updated_at) existing_projects with
    | none => .error .valueError
    | some oldest => .ok (decide (oldest.updated_at < new_project.updated_at))
  else if strategy == "lowest_activity" then
    match pyMin activity_score existing_projects with
    | none => .error .valueError
    | some lowest =>
        .ok (decide (activity_score lowest < activity_score new_project))
  else
    .ok false

/-- `IncrementalProjectCollector._find_project_to_replace`
(`incremental_collector.py` lines 274-290). -/
def find_project_to_replace (existing_projects : List Record)
    (strategy : String) : Option Record :=
  if existing_projects.isEmpty then none
  else if strategy == "lowest_stars" then
    pyMin (fun x => x.stars) existing_projects
  else if strategy == "oldest" then
    pyMin (fun x => x.updated_at) existing_projects
  else if strategy == "lowest_activity" then
    pyMin activity_score existing_projects
  else none

/-- One iteration of the `for new_proj in new_projects` loop of
`IncrementalProjectCollector.add_new_projects`
(`incremental_collector.py` lines 203-236).  Note that in the
already-present branch only the dict `existing_repos` is reassigned; the
list `existing_projects` is not touched (lines 209-212). -/
def add_one_project (max_total : Nat) (strategy : String)
    (acc : CollectorState × Stats) (new_proj : Record) :
    Except PyErr (CollectorState × Stats) :=
  let st := acc.1
  let stats := acc.2
  let proj_name := new_proj.name_with_owner
  if dictContains st.existing_repos proj_name then
    match dictGet? st.existing_repos proj_name with
    | none => .error .keyError
    | some old_proj =>
        if new_proj.stars ≠ old_proj.stars then
          .ok ({ st with
                   existing_repos := dictSet st.existing_repos proj_name new_proj },
               { stats with updated := stats.updated + 1 })
        else
          .ok (st, { stats with skipped := stats.skipped + 1 })
  else if st.existing_projects.length < max_total then
    .ok ({ existing_projects := st.existing_projects ++ [new_proj],
           existing_repos := dictSet st.existing_repos proj_name new_proj },
         { stats with added := stats.added + 1 })
  else
    match should_replace st.existing_projects new_proj strategy with
    | .error e => .error e
    | .ok true =>
        match find_project_to_replace st.existing_projects strategy with
        | some to_replace => do
            let repos1 ← dictDel st.existing_repos to_replace.name_with_owner
            let repos2 := dictSet repos1 proj_name new_proj
            let projs1 ← pyListRemove st.existing_projects to_replace
            .ok ({ existing_projects := projs1 ++ [new_proj],
                   existing_repos := repos2 },
                 { stats with replaced := stats.replaced + 1 })
        | none => .ok (st, stats)
    | .ok false => .ok (st, { stats with skipped := stats.skipped + 1 })

/-- `IncrementalProjectCollector.add_new_projects`
(`incremental_collector.py` lines 182-250): process every candidate, then
re-sort `existing_projects` by stars descending; the sorted list is what
`_save_projects` persists. -/
def add_new_projects (st : CollectorState) (new_projects : List Record)
    (max_total : Nat) (strategy : String) :
    Except PyErr (CollectorState × Stats) := do
  let r ← new_projects.foldlM (add_one_project max_total strategy)
            (st, ⟨0, 0, 0, 0⟩)
  .ok ({ r.1 with existing_projects := sortByStarsDesc r.1.existing_projects },
       r.2)

/-- The constructor's index build
`self.existing_repos = {p["name_with_owner"]: p for p in self.existing_projects}`
(`incremental_collector.py` line 36): a dict comprehension is a left fold of
assignments into an empty dict. -/
def initState (projects : List Record) : CollectorState :=
  { existing_projects := projects,
    existing_repos :=
      projects.foldl (fun d p => dictSet d p.name_with_owner p) [] }

end SSR

namespace SSR

/-! ## Basic facts about the dict and list primitives -/

/-- Keys of a modelled dict, in insertion order. -/
def dictKeys (d : List (String × Record)) : List String := d.map Prod.fst

/-- Names of the records of a pool, in pool order. -/
def namesOf (l : List Record) : List String :=
  l.map Record.name_with_owner

theorem dictContains_iff_mem {d : List (String × Record)} {k : String} :
    dictContains d k = true ↔ k ∈ dictKeys d := by
  constructor
  · intro h
    obtain ⟨p, hp, hpk⟩ :=
      (by simpa [dictContains, List.any_eq_true] using h :
        ∃ p ∈ d, (p.1 == k) = true)
    exact (beq_iff_eq.mp hpk) ▸ List.mem_map_of_mem Prod.fst hp
  · intro h
    obtain ⟨p, hp, hpk⟩ := List.mem_map.mp h
    simp only [dictContains, List.any_eq_true]
    exact ⟨p, hp, beq_iff_eq.mpr hpk⟩

theorem dictContains_iff_get {d : List (String × Record)} {k : String} :
    dictContains d k = true ↔ ∃ v, dictGet? d k = some v := by
  constructor
  · intro h
    have : ∃ p ∈ d, (p.1 == k) = true := by
      simpa [dictContains, List.any_eq_true] using h
    obtain ⟨p, hp, hpk⟩ := this
    have : (d.find? (fun p => p.1 == k)).isSome := by
      exact List.find?_isSome.mpr ⟨p, hp, hpk⟩
    obtain ⟨q, hq⟩ := Option.isSome_iff_exists.mp this
    exact ⟨q.2, by simp [dictGet?, hq]⟩
  · rintro ⟨v, hv⟩
    simp only [dictGet?] at hv
    cases hfind : d.find? (fun p => p.1 == k) with
    | none => rw [hfind] at hv; simp at hv
    | some p =>
        have hmem := List.mem_of_find?_eq_some hfind
        have hpk := List.find?_some hfind
        simp only [dictContains, List.any_eq_true]
        exact ⟨p, hmem, hpk⟩

theorem dictKeys_set_of_contains {d : List (String × Record)} {k : String}
    (v : Record) (h : dictContains d k = true) :
    dictKeys (dictSet d k v) = dictKeys d := by
  simp only [dictSet, h, if_true, dictKeys, List.map_map]
  apply List.map_congr_left
  intro p _
  by_cases hpk : p.1 = k <;> simp [hpk]

theorem dictKeys_set_of_not_contains {d : List (String × Record)} {k : String}
    (v : Record) (h : dictContains d k = false) :
    dictKeys (dictSet d k v) = dictKeys d ++ [k] := by
  simp [dictSet, h, dictKeys]

theorem dictKeys_filter_ne (d : List (String × Record)) (k : String) :
    dictKeys (d.filter (fun p => !(p.1 == k))) =
      (dictKeys d).filter (fun s => !(s == k)) := by
  induction d with
  | nil => rfl
  | cons p d ih =>
      by_cases hpk : p.1 = k <;> simp [dictKeys, List.filter_cons, hpk] <;>
        simpa [dictKeys] using ih

/-! ## Facts about `pyMin` -/

theorem pyMin_eq_none_iff {β : Type} [LinearOrder β] (key : Record → β)
    (l : List Record) : pyMin key l = none ↔ l = [] := by
  cases l <;> simp [pyMin]

theorem pyMin_foldl_spec {β : Type} [LinearOrder β] (key : Record → β)
    (xs : List Record) :
    ∀ (b m : Record),
      xs.foldl (fun best y => if key y < key best then y else best) b = m →
      (m = b ∧ ∀ y ∈ xs, key b ≤ key y) ∨
      (∃ l1 l2, xs = l1 ++ m :: l2 ∧ key m < key b ∧
        (∀ y ∈ l1, key m < key y) ∧ (∀ y ∈ xs, key m ≤ key y)) := by
  induction xs with
  | nil => intro b m h; exact Or.inl ⟨h.symm, by simp⟩
  | cons y ys ih =>
      intro b m h
      simp only [List.foldl_cons] at h
      by_cases hyb : key y < key b
      · rw [if_pos hyb] at h
        rcases ih y m h with ⟨hm, hmin⟩ | ⟨l1, l2, hsplit, hlt, hfirst, hmin⟩
        · subst hm
          refine Or.inr ⟨[], ys, by simp, hyb, by simp, ?_⟩
          intro z hz
          rcases List.mem_cons.mp hz with hz | hz
          · exact hz ▸ le_refl _
          · exact hmin z hz
        · refine Or.inr ⟨y :: l1, l2, by simp [hsplit], lt_trans hlt hyb, ?_, ?_⟩
          · intro z hz
            rcases List.mem_cons.mp hz with hz | hz
            · exact hz ▸ hlt
            · exact hfirst z hz
          · intro z hz
            rcases List.mem_cons.mp hz with hz | hz
            · exact hz ▸ le_of_lt hlt
            · exact hmin z hz
      · rw [if_neg hyb] at h
        have hby : key b ≤ key y := le_of_not_lt hyb
        rcases ih b m h with ⟨hm, hmin⟩ | ⟨l1, l2, hsplit, hlt, hfirst, hmin⟩
        · refine Or.inl ⟨hm, ?_⟩
          intro z hz
          rcases List.mem_cons.mp hz with hz | hz
          · exact hz ▸ hby
          · exact hmin z hz
        · refine Or.inr ⟨y :: l1, l2, by simp [hsplit], hlt, ?_, ?_⟩
          · intro z hz
            rcases List.mem_cons.mp hz with hz | hz
            · exact hz ▸ lt_of_lt_of_le hlt hby
            · exact hfirst z hz
          · intro z hz
            rcases List.mem_cons.mp hz with hz | hz
            · exact hz ▸ le_of_lt (lt_of_lt_of_le hlt hby)
            · exact hmin z hz

/-- The first-minimum characterisation of Python `min` with a key: the result
splits the list as `l1 ++ m :: l2` where every element of `l1` has a strictly
larger key (so `m` is the first element attaining the minimum) and `m` has a
minimal key overall. -/
theorem pyMin_split {β : Type} [LinearOrder β] {key : Record → β}
    {l : List Record} {m : Record} (h : pyMin key l = some m) :
    ∃ l1 l2, l = l1 ++ m :: l2 ∧ (∀ y ∈ l1, key m < key y) ∧
      (∀ y ∈ l, key m ≤ key y) := by
  match l with
  | [] => simp [pyMin] at h
  | x :: xs =>
      simp only [pyMin, Option.some.injEq] at h
      rcases pyMin_foldl_spec key xs x m h with ⟨hm, hmin⟩ |
        ⟨l1, l2, hsplit, hlt, hfirst, hmin⟩
      · subst hm
        refine ⟨[], xs, by simp, by simp, ?_⟩
        intro z hz
        rcases List.mem_cons.mp hz with hz | hz
        · exact hz ▸ le_refl _
        · exact hmin z hz
      · refine ⟨x :: l1, l2, by simp [hsplit], ?_, ?_⟩
        · intro z hz
          rcases List.mem_cons.mp hz with hz | hz
          · exact hz ▸ hlt
          · exact hfirst z hz
        · intro z hz
          rcases List.mem_cons.mp hz with hz | hz
          · exact hz ▸ le_of_lt hlt
          · exact hmin z hz

theorem pyMin_mem {β : Type} [LinearOrder β] {key : Record → β}
    {l : List Record} {m : Record} (h : pyMin key l = some m) : m ∈ l := by
  obtain ⟨l1, l2, hsplit, -, -⟩ := pyMin_split h
  subst hsplit; simp

/-- Removing the first minimum: since every earlier element has a strictly
larger key, the first element equal to `m` is `m` itself. -/
theorem erase_append_first (l1 l2 : List Record) (m : Record)
    (h : ∀ y ∈ l1, y ≠ m) : (l1 ++ m :: l2).erase m = l1 ++ l2 := by
  induction l1 with
  | nil => simp
  | cons a l1 ih =>
      have ha : a ≠ m := h a (by simp)
      have ha2 : ¬ (a == m) = true := by simpa using ha
      simp only [List.cons_append, List.erase_cons]
      rw [if_neg ha2]
      rw [ih (fun y hy => h y (by simp [hy]))]

end SSR

namespace SSR


/-! ## Unfolding lemmas for the three literal strategies -/

theorem should_replace_lowest_stars (l : List Record) (c : Record) :
    should_replace l c "lowest_stars" =
      match pyMin (fun x => x.stars) l with
      | none => .error .valueError
      | some lowest => .ok (decide (lowest.stars < c.stars)) := rfl

theorem should_replace_oldest (l : List Record) (c : Record) :
    should_replace l c "oldest" =
      match pyMin (fun x => x.updated_at) l with
      | none => .error .valueError
      | some oldest => .ok (decide (oldest.updated_at < c.updated_at)) := rfl

theorem should_replace_lowest_activity (l : List Record) (c : Record) :
    should_replace l c "lowest_activity" =
      match pyMin activity_score l with
      | none => .error .valueError
      | some lowest =>
          .ok (decide (activity_score lowest < activity_score c)) := rfl

theorem should_replace_other (l : List Record) (c : Record) {strat : String}
    (h1 : strat ≠ "lowest_stars") (h2 : strat ≠ "oldest")
    (h3 : strat ≠ "lowest_activity") :
    should_replace l c strat = .ok false := by
  simp only [should_replace]
  rw [if_neg (by simpa using h1), if_neg (by simpa using h2),
    if_neg (by simpa using h3)]

theorem find_lowest_stars (l : List Record) :
    find_project_to_replace l "lowest_stars" =
      if l.isEmpty then none else pyMin (fun x => x.stars) l := rfl

theorem find_oldest (l : List Record) :
    find_project_to_replace l "oldest" =
      if l.isEmpty then none else pyMin (fun x => x.updated_at) l := rfl

theorem find_lowest_activity (l : List Record) :
    find_project_to_replace l "lowest_activity" =
      if l.isEmpty then none else pyMin activity_score l := rfl

/-- If `_should_replace` answers `True`, the strategy is one of the three
known ones and `min` found a record, so the pool is nonempty and
`_find_project_to_replace` returns that same record. -/
theorem find_of_should_replace_true {l : List Record} {cand : Record}
    {strategy : String} (h : should_replace l cand strategy = .ok true) :
    ∃ w, find_project_to_replace l strategy = some w := by
  have hne : ∀ {β : Type} [inst : LinearOrder β] (key : Record → β) (w : Record),
      pyMin key l = some w → l.isEmpty = false := by
    intro β inst key w hw
    cases l with
    | nil => simp [pyMin] at hw
    | cons a as => simp
  by_cases h1 : strategy = "lowest_stars"
  · subst h1
    rw [should_replace_lowest_stars] at h
    cases hm : pyMin (fun x => x.stars) l with
    | none => rw [hm] at h; exact absurd h (by simp)
    | some w => exact ⟨w, by rw [find_lowest_stars, if_neg (by simp [hne _ w hm]), hm]⟩
  · by_cases h2 : strategy = "oldest"
    · subst h2
      rw [should_replace_oldest] at h
      cases hm : pyMin (fun x => x.updated_at) l with
      | none => rw [hm] at h; exact absurd h (by simp)
      | some w => exact ⟨w, by rw [find_oldest, if_neg (by simp [hne _ w hm]), hm]⟩
    · by_cases h3 : strategy = "lowest_activity"
      · subst h3
        rw [should_replace_lowest_activity] at h
        cases hm : pyMin activity_score l with
        | none => rw [hm] at h; exact absurd h (by simp)
        | some w =>
            exact ⟨w, by rw [find_lowest_activity, if_neg (by simp [hne _ w hm]), hm]⟩
      · rw [should_replace_other l cand h1 h2 h3] at h
        exact absurd h (by simp)

/-- Any record returned by `_find_project_to_replace` is a member of the
pool. -/
theorem find_mem {l : List Record} {strategy : String} {w : Record}
    (h : find_project_to_replace l strategy = some w) : w ∈ l := by
  simp only [find_project_to_replace] at h
  by_cases he : l.isEmpty
  · rw [if_pos he] at h; exact absurd h (by simp)
  · rw [if_neg he] at h
    split at h
    · exact pyMin_mem h
    · split at h
      · exact pyMin_mem h
      · split at h
        · exact pyMin_mem h
        · exact absurd h (by simp)

/-- Exhaustive description of the ways one loop iteration of
`add_new_projects` can return normally: update-in-dict, skip-as-identical,
append-below-capacity, skip-at-capacity, or evict-and-insert. -/
theorem add_one_cases {max_total : Nat} {strategy : String}
    {st : CollectorState} {stats : Stats} {cand : Record}
    {out : CollectorState × Stats}
    (h : add_one_project max_total strategy (st, stats) cand = .ok out) :
    (∃ old, dictGet? st.existing_repos cand.name_with_owner = some old ∧
      ((cand.stars ≠ old.stars ∧
        out = ({ st with existing_repos :=
                   dictSet st.existing_repos cand.name_with_owner cand },
               { stats with updated := stats.updated + 1 })) ∨
       (cand.stars = old.stars ∧
        out = (st, { stats with skipped := stats.skipped + 1 })))) ∨
    (dictContains st.existing_repos cand.name_with_owner = false ∧
      st.existing_projects.length < max_total ∧
      out = ({ existing_projects := st.existing_projects ++ [cand],
               existing_repos :=
                 dictSet st.existing_repos cand.name_with_owner cand },
             { stats with added := stats.added + 1 })) ∨
    (dictContains st.existing_repos cand.name_with_owner = false ∧
      ¬ st.existing_projects.length < max_total ∧
      should_replace st.existing_projects cand strategy = .ok false ∧
      out = (st, { stats with skipped := stats.skipped + 1 })) ∨
    (dictContains st.existing_repos cand.name_with_owner = false ∧
      ¬ st.existing_projects.length < max_total ∧
      should_replace st.existing_projects cand strategy = .ok true ∧
      ∃ w, find_project_to_replace st.existing_projects strategy = some w ∧
        w ∈ st.existing_projects ∧
        dictContains st.existing_repos w.name_with_owner = true ∧
        out = ({ existing_projects :=
                   st.existing_projects.erase w ++ [cand],
                 existing_repos :=
                   dictSet (st.existing_repos.filter
                     (fun p => !(p.1 == w.name_with_owner)))
                     cand.name_with_owner cand },
             { stats with replaced := stats.replaced + 1 })) := by
  by_cases hc : dictContains st.existing_repos cand.name_with_owner = true
  · left
    obtain ⟨old, hold⟩ := dictContains_iff_get.mp hc
    simp only [add_one_project, hc, if_true, hold] at h
    by_cases hstars : cand.stars = old.stars
    · refine ⟨old, hold, Or.inr ⟨hstars, ?_⟩⟩
      rw [if_neg (by simpa using hstars)] at h
      exact (Except.ok.inj h).symm
    · refine ⟨old, hold, Or.inl ⟨hstars, ?_⟩⟩
      rw [if_pos (by simpa using hstars)] at h
      exact (Except.ok.inj h).symm
  · right
    replace hc : dictContains st.existing_repos cand.name_with_owner = false :=
      by simpa using hc
    simp only [add_one_project, hc] at h
    rw [if_neg (by simp)] at h
    by_cases hlen : st.existing_projects.length < max_total
    · left
      rw [if_pos hlen] at h
      exact ⟨hc, hlen, (Except.ok.inj h).symm⟩
    · right
      rw [if_neg hlen] at h
      cases hsr : should_replace st.existing_projects cand strategy with
      | error e => rw [hsr] at h; exact absurd h (by simp)
      | ok b =>
          rw [hsr] at h
          cases b with
          | false =>
              simp only at h
              exact Or.inl ⟨hc, hlen, rfl, (Except.ok.inj h).symm⟩
          | true =>
              simp only at h
              obtain ⟨w, hw⟩ := find_of_should_replace_true hsr
              rw [hw] at h
              have hwmem : w ∈ st.existing_projects := find_mem hw
              by_cases hwk :
                  dictContains st.existing_repos w.name_with_owner = true
              · refine Or.inr ⟨hc, hlen, rfl, w, hw, hwmem, hwk, ?_⟩
                simp only [dictDel, hwk, if_true, pyListRemove,
                  if_pos hwmem, bind, Except.bind] at h
                exact (Except.ok.inj h).symm
              · exfalso
                simp only [dictDel] at h
                rw [if_neg hwk] at h
                simp [bind, Except.bind] at h

/-! ## The list/dict synchronisation invariant -/

/-- Invariant tying the two halves of the collector state together: pool
names are pairwise distinct, index keys are pairwise distinct, and the key
set of the index equals the name set of the pool.  (Nothing is said about
the *values* of the index: they can lag behind or run ahead of the list,
which is exactly the desynchronisation the code exhibits.) -/
def SyncInv (st : CollectorState) : Prop :=
  (namesOf st.existing_projects).Nodup ∧
  (dictKeys st.existing_repos).Nodup ∧
  (∀ k ∈ dictKeys st.existing_repos, k ∈ namesOf st.existing_projects) ∧
  (∀ k ∈ namesOf st.existing_projects, k ∈ dictKeys st.existing_repos)

instance (st : CollectorState) : Decidable (SyncInv st) := by
  unfold SyncInv; infer_instance

theorem namesOf_append (l1 l2 : List Record) :
    namesOf (l1 ++ l2) = namesOf l1 ++ namesOf l2 := List.map_append _ _ _

theorem mem_namesOf {l : List Record} {r : Record} (h : r ∈ l) :
    r.name_with_owner ∈ namesOf l := List.mem_map_of_mem _ h

theorem nodup_append_singleton {xs : List String} {y : String}
    (hnd : xs.Nodup) (hy : y ∉ xs) : (xs ++ [y]).Nodup := by
  rw [List.nodup_append]
  refine ⟨hnd, List.nodup_singleton y, ?_⟩
  intro a ha hb
  rw [List.mem_singleton] at hb
  exact hy (hb ▸ ha)

/-- Erasing a member of a pool with distinct names removes exactly its name
from the name list (up to membership). -/
theorem namesOf_erase {l : List Record} {w : Record}
    (hnd : (namesOf l).Nodup) (hw : w ∈ l) :
    (namesOf (l.erase w)).Nodup ∧
    w.name_with_owner ∉ namesOf (l.erase w) ∧
    (∀ k, k ∈ namesOf (l.erase w) ↔
      (k ∈ namesOf l ∧ k ≠ w.name_with_owner)) := by
  have hperm : List.Perm l (w :: l.erase w) := List.perm_cons_erase hw
  have hperm2 : List.Perm (namesOf l)
      (w.name_with_owner :: namesOf (l.erase w)) :=
    hperm.map Record.name_with_owner
  have hnd2 : (w.name_with_owner :: namesOf (l.erase w)).Nodup :=
    hperm2.nodup_iff.mp hnd
  have hnotin : w.name_with_owner ∉ namesOf (l.erase w) :=
    (List.nodup_cons.mp hnd2).1
  refine ⟨(List.nodup_cons.mp hnd2).2, hnotin, fun k => ?_⟩
  have hmem : k ∈ namesOf l ↔
      k = w.name_with_owner ∨ k ∈ namesOf (l.erase w) := by
    rw [hperm2.mem_iff]; simp
  constructor
  · intro hk
    refine ⟨hmem.mpr (Or.inr hk), fun he => hnotin (he ▸ hk)⟩
  · rintro ⟨hk, hne⟩
    rcases hmem.mp hk with he | hk2
    · exact absurd he hne
    · exact hk2

/-- One successful loop iteration preserves the synchronisation invariant,
changes the pool length by zero (or by one, only below capacity), and
increments exactly one of the four counters. -/
theorem step_preserves {max_total : Nat} {strategy : String}
    {st : CollectorState} {stats : Stats} {cand : Record}
    {out : CollectorState × Stats}
    (hsync : SyncInv st)
    (h : add_one_project max_total strategy (st, stats) cand = .ok out) :
    SyncInv out.1 ∧
    (out.1.existing_projects.length = st.existing_projects.length ∨
      (out.1.existing_projects.length = st.existing_projects.length + 1 ∧
        st.existing_projects.length < max_total)) ∧
    out.2.added + out.2.replaced + out.2.skipped + out.2.updated =
      stats.added + stats.replaced + stats.skipped + stats.updated + 1 := by
  obtain ⟨hnd, hkd, hks, hsk⟩ := hsync
  rcases add_one_cases h with
    ⟨old, hold, ⟨-, hout⟩ | ⟨-, hout⟩⟩ |
    ⟨hc, hlen, hout⟩ | ⟨hc, hlen, -, hout⟩ |
    ⟨hc, hlen, -, w, hw, hwmem, hwk, hout⟩
  · -- updated in place: keys unchanged, list unchanged
    have hc : dictContains st.existing_repos cand.name_with_owner = true :=
      dictContains_iff_get.mpr ⟨old, hold⟩
    subst hout
    refine ⟨⟨hnd, ?_, ?_, ?_⟩, Or.inl rfl, by dsimp only; omega⟩ <;>
      simp only [dictKeys_set_of_contains cand hc]
    · exact hkd
    · exact hks
    · exact hsk
  · -- skipped (identical stars)
    subst hout
    exact ⟨⟨hnd, hkd, hks, hsk⟩, Or.inl rfl, by dsimp only; omega⟩
  · -- added below capacity
    subst hout
    have hnotk : cand.name_with_owner ∉ dictKeys st.existing_repos := by
      intro hmem
      rw [dictContains_iff_mem.mpr hmem] at hc
      exact absurd hc (by simp)
    have hnotn : cand.name_with_owner ∉ namesOf st.existing_projects :=
      fun hmem => hnotk (hsk _ hmem)
    refine ⟨⟨?_, ?_, ?_, ?_⟩, Or.inr ⟨by simp, hlen⟩, by dsimp only; omega⟩
    · rw [namesOf_append]
      exact nodup_append_singleton hnd hnotn
    · rw [dictKeys_set_of_not_contains cand hc]
      exact nodup_append_singleton hkd hnotk
    · rw [dictKeys_set_of_not_contains cand hc, namesOf_append]
      intro k hk
      rcases List.mem_append.mp hk with hk | hk
      · exact List.mem_append.mpr (Or.inl (hks k hk))
      · exact List.mem_append.mpr (Or.inr (by simpa [namesOf] using hk))
    · rw [dictKeys_set_of_not_contains cand hc, namesOf_append]
      intro k hk
      rcases List.mem_append.mp hk with hk | hk
      · exact List.mem_append.mpr (Or.inl (hsk k hk))
      · exact List.mem_append.mpr (Or.inr (by simpa [namesOf] using hk))
  · -- skipped at capacity
    subst hout
    exact ⟨⟨hnd, hkd, hks, hsk⟩, Or.inl rfl, by dsimp only; omega⟩
  · -- replaced: erase the weakest, insert the candidate
    subst hout
    have hnotk : cand.name_with_owner ∉ dictKeys st.existing_repos := by
      intro hmem
      rw [dictContains_iff_mem.mpr hmem] at hc
      exact absurd hc (by simp)
    have hnotn : cand.name_with_owner ∉ namesOf st.existing_projects :=
      fun hmem => hnotk (hsk _ hmem)
    obtain ⟨hndE, hwE, hmemE⟩ := namesOf_erase hnd hwmem
    have hkeysF : dictKeys (st.existing_repos.filter
        (fun p => !(p.1 == w.name_with_owner))) =
        (dictKeys st.existing_repos).filter
          (fun s => !(s == w.name_with_owner)) :=
      dictKeys_filter_ne _ _
    have hcandF : dictContains (st.existing_repos.filter
        (fun p => !(p.1 == w.name_with_owner))) cand.name_with_owner
        = false := by
      rw [Bool.eq_false_iff]
      intro hcF
      have := dictContains_iff_mem.mp hcF
      rw [hkeysF] at this
      exact hnotk (List.mem_of_mem_filter this)
    have hkeys2 : dictKeys (dictSet (st.existing_repos.filter
        (fun p => !(p.1 == w.name_with_owner)))
        cand.name_with_owner cand) =
        (dictKeys st.existing_repos).filter
          (fun s => !(s == w.name_with_owner)) ++ [cand.name_with_owner] := by
      rw [dictKeys_set_of_not_contains cand hcandF, hkeysF]
    have hmemF : ∀ k, k ∈ (dictKeys st.existing_repos).filter
        (fun s => !(s == w.name_with_owner)) ↔
        (k ∈ dictKeys st.existing_repos ∧ k ≠ w.name_with_owner) := by
      intro k; simp [List.mem_filter]
    refine ⟨⟨?_, ?_, ?_, ?_⟩, Or.inl ?_, by dsimp only; omega⟩
    · rw [namesOf_append]
      exact nodup_append_singleton hndE
        (fun hmem => hnotn ((hmemE _).mp hmem).1)
    · rw [hkeys2]
      exact nodup_append_singleton (List.Nodup.filter _ hkd)
        (fun hmem => hnotk (List.mem_of_mem_filter hmem))
    · rw [hkeys2, namesOf_append]
      intro k hk
      rcases List.mem_append.mp hk with hk | hk
      · obtain ⟨hk1, hk2⟩ := (hmemF k).mp hk
        exact List.mem_append.mpr (Or.inl ((hmemE k).mpr ⟨hks k hk1, hk2⟩))
      · exact List.mem_append.mpr (Or.inr (by simpa [namesOf] using hk))
    · rw [hkeys2, namesOf_append]
      intro k hk
      rcases List.mem_append.mp hk with hk | hk
      · obtain ⟨hk1, hk2⟩ := (hmemE k).mp hk
        exact List.mem_append.mpr (Or.inl ((hmemF k).mpr ⟨hsk k hk1, hk2⟩))
      · exact List.mem_append.mpr (Or.inr (by simpa [namesOf] using hk))
    · have : (st.existing_projects.erase w).length =
          st.existing_projects.length - 1 := List.length_erase_of_mem hwmem
      have hpos : 0 < st.existing_projects.length :=
        List.length_pos.mpr (List.ne_nil_of_mem hwmem)
      simp only [List.length_append, this, List.length_cons, List.length_nil]
      omega

theorem dictContains_eq_of_keys {d1 d2 : List (String × Record)}
    (h : dictKeys d1 = dictKeys d2) (k : String) :
    dictContains d1 k = dictContains d2 k := by
  cases hc : dictContains d2 k
  · rw [Bool.eq_false_iff]
    intro h1
    have hmem := dictContains_iff_mem.mp h1
    rw [h] at hmem
    rw [dictContains_iff_mem.mpr hmem] at hc
    exact absurd hc (by simp)
  · exact dictContains_iff_mem.mpr (h ▸ dictContains_iff_mem.mp hc)

/-- A candidate already present in the index never fails and only touches
index values and the `updated`/`skipped` counters. -/
theorem step_present {max_total : Nat} {strategy : String}
    {st : CollectorState} {stats : Stats} {cand : Record}
    {out : CollectorState × Stats}
    (hc : dictContains st.existing_repos cand.name_with_owner = true)
    (h : add_one_project max_total strategy (st, stats) cand = .ok out) :
    out.1.existing_projects = st.existing_projects ∧
    dictKeys out.1.existing_repos = dictKeys st.existing_repos ∧
    out.2.added = stats.added ∧ out.2.replaced = stats.replaced ∧
    out.2.updated + out.2.skipped = stats.updated + stats.skipped + 1 := by
  rcases add_one_cases h with
    ⟨old, hold, ⟨-, hout⟩ | ⟨-, hout⟩⟩ |
    ⟨hc2, -, -⟩ | ⟨hc2, -, -, -⟩ | ⟨hc2, -, -, -⟩
  · subst hout
    exact ⟨rfl, dictKeys_set_of_contains cand hc, rfl, rfl, by dsimp only; omega⟩
  · subst hout
    exact ⟨rfl, rfl, rfl, rfl, by dsimp only; omega⟩
  all_goals rw [hc] at hc2; exact absurd hc2 (by simp)

theorem step_ok_of_present {max_total : Nat} {strategy : String}
    {st : CollectorState} {stats : Stats} {cand : Record}
    (hc : dictContains st.existing_repos cand.name_with_owner = true) :
    ∃ out, add_one_project max_total strategy (st, stats) cand = .ok out := by
  obtain ⟨old, hold⟩ := dictContains_iff_get.mp hc
  by_cases hstars : cand.stars = old.stars
  · refine ⟨(st, { stats with skipped := stats.skipped + 1 }), ?_⟩
    simp only [add_one_project, hc, if_true, hold]
    rw [if_neg (by simpa using hstars)]
  · refine ⟨({ st with existing_repos := dictSet st.existing_repos cand.name_with_owner cand }, { stats with updated := stats.updated + 1 }), ?_⟩
    simp only [add_one_project, hc, if_true, hold]
    rw [if_pos (by simpa using hstars)]

theorem should_replace_ne_error {l : List Record} {cand : Record}
    {strategy : String} {e : PyErr} (hne : l ≠ []) :
    should_replace l cand strategy ≠ .error e := by
  by_cases h1 : strategy = "lowest_stars"
  · subst h1
    rw [should_replace_lowest_stars]
    cases hm : pyMin (fun x => x.stars) l with
    | none => exact absurd ((pyMin_eq_none_iff _ l).mp hm) hne
    | some w => simp
  · by_cases h2 : strategy = "oldest"
    · subst h2
      rw [should_replace_oldest]
      cases hm : pyMin (fun x => x.updated_at) l with
      | none => exact absurd ((pyMin_eq_none_iff _ l).mp hm) hne
      | some w => simp
    · by_cases h3 : strategy = "lowest_activity"
      · subst h3
        rw [should_replace_lowest_activity]
        cases hm : pyMin activity_score l with
        | none => exact absurd ((pyMin_eq_none_iff _ l).mp hm) hne
        | some w => simp
      · rw [should_replace_other l cand h1 h2 h3]; simp

/-- With a nonempty pool and a synchronised index, one loop iteration never
raises. -/
theorem step_ok_of_ne_nil {max_total : Nat} {strategy : String}
    {st : CollectorState} {stats : Stats} {cand : Record}
    (hsync : SyncInv st) (hne : st.existing_projects ≠ []) :
    ∃ out, add_one_project max_total strategy (st, stats) cand = .ok out := by
  by_cases hc : dictContains st.existing_repos cand.name_with_owner = true
  · exact step_ok_of_present hc
  · replace hc : dictContains st.existing_repos cand.name_with_owner = false :=
      by simpa using hc
    by_cases hlen : st.existing_projects.length < max_total
    · refine ⟨({ existing_projects := st.existing_projects ++ [cand], existing_repos := dictSet st.existing_repos cand.name_with_owner cand }, { stats with added := stats.added + 1 }), ?_⟩
      simp only [add_one_project, hc]
      rw [if_neg (by simp), if_pos hlen]
    · cases hsr : should_replace st.existing_projects cand strategy with
      | error e => exact absurd hsr (should_replace_ne_error hne)
      | ok b =>
          cases b with
          | false =>
              refine ⟨(st, { stats with skipped := stats.skipped + 1 }), ?_⟩
              simp only [add_one_project, hc]
              rw [if_neg (by simp), if_neg hlen, hsr]
          | true =>
              obtain ⟨w, hw⟩ := find_of_should_replace_true hsr
              have hwmem : w ∈ st.existing_projects := find_mem hw
              have hwk : dictContains st.existing_repos w.name_with_owner
                  = true :=
                dictContains_iff_mem.mpr (hsync.2.2.2 _ (mem_namesOf hwmem))
              refine ⟨({ existing_projects := st.existing_projects.erase w ++ [cand], existing_repos := dictSet (st.existing_repos.filter (fun p => !(p.1 == w.name_with_owner))) cand.name_with_owner cand }, { stats with replaced := stats.replaced + 1 }), ?_⟩
              simp only [add_one_project, hc]
              rw [if_neg (by simp), if_neg hlen, hsr]
              simp only [hw, dictDel, hwk, if_true, pyListRemove,
                if_pos hwmem, bind, Except.bind]

/-- Below capacity, one iteration only grows the key set and always records
the processed candidate in the index. -/
theorem step_keys_below {max_total : Nat} {strategy : String}
    {st : CollectorState} {stats : Stats} {cand : Record}
    {out : CollectorState × Stats}
    (hlen : st.existing_projects.length < max_total)
    (h : add_one_project max_total strategy (st, stats) cand = .ok out) :
    (∀ k, dictContains st.existing_repos k = true →
      dictContains out.1.existing_repos k = true) ∧
    dictContains out.1.existing_repos cand.name_with_owner = true := by
  rcases add_one_cases h with
    ⟨old, hold, ⟨-, hout⟩ | ⟨-, hout⟩⟩ |
    ⟨hc, -, hout⟩ | ⟨-, hlen2, -, -⟩ | ⟨-, hlen2, -, -⟩
  · have hc : dictContains st.existing_repos cand.name_with_owner = true :=
      dictContains_iff_get.mpr ⟨old, hold⟩
    subst hout
    have hkeys : dictKeys (dictSet st.existing_repos cand.name_with_owner cand)
        = dictKeys st.existing_repos := dictKeys_set_of_contains cand hc
    constructor
    · intro k hk
      rw [dictContains_eq_of_keys hkeys k]; exact hk
    · rw [dictContains_eq_of_keys hkeys _]; exact hc
  · have hc : dictContains st.existing_repos cand.name_with_owner = true :=
      dictContains_iff_get.mpr ⟨old, hold⟩
    subst hout
    exact ⟨fun k hk => hk, hc⟩
  · subst hout
    have hkeys : dictKeys (dictSet st.existing_repos cand.name_with_owner cand)
        = dictKeys st.existing_repos ++ [cand.name_with_owner] :=
      dictKeys_set_of_not_contains cand hc
    constructor
    · intro k hk
      refine dictContains_iff_mem.mpr ?_
      rw [hkeys]
      exact List.mem_append.mpr (Or.inl (dictContains_iff_mem.mp hk))
    · refine dictContains_iff_mem.mpr ?_
      rw [hkeys]
      exact List.mem_append.mpr (Or.inr (by simp))
  all_goals exact absurd hlen hlen2

/-- The `added` counter only moves below capacity. -/
theorem step_added {max_total : Nat} {strategy : String}
    {st : CollectorState} {stats : Stats} {cand : Record}
    {out : CollectorState × Stats}
    (h : add_one_project max_total strategy (st, stats) cand = .ok out) :
    out.2.added = stats.added ∨
      (out.2.added = stats.added + 1 ∧
        st.existing_projects.length < max_total) := by
  rcases add_one_cases h with
    ⟨old, hold, ⟨-, hout⟩ | ⟨-, hout⟩⟩ |
    ⟨-, hlen, hout⟩ | ⟨-, -, -, hout⟩ | ⟨-, -, -, w, -, -, -, hout⟩ <;>
    subst hout
  · exact Or.inl rfl
  · exact Or.inl rfl
  · exact Or.inr ⟨rfl, hlen⟩
  · exact Or.inl rfl
  · exact Or.inl rfl

/-! ## Facts about the candidate-processing fold -/

theorem fold_preserves {max_total : Nat} {strategy : String} :
    ∀ (cands : List Record) {st : CollectorState} {stats : Stats}
      {outp : CollectorState × Stats},
      SyncInv st →
      List.foldlM (add_one_project max_total strategy) (st, stats) cands
        = .ok outp →
      SyncInv outp.1 ∧
      st.existing_projects.length ≤ outp.1.existing_projects.length ∧
      (st.existing_projects.length ≤ max_total →
        outp.1.existing_projects.length ≤ max_total) ∧
      outp.2.added + outp.2.replaced + outp.2.skipped + outp.2.updated =
        stats.added + stats.replaced + stats.skipped + stats.updated +
          cands.length
  | [], st, stats, outp, hsync, h => by
      simp only [List.foldlM_nil, pure, Except.pure] at h
      obtain rfl : (st, stats) = outp := Except.ok.inj h
      exact ⟨hsync, le_refl _, fun h => h, by simp⟩
  | c :: cs, st, stats, outp, hsync, h => by
      simp only [List.foldlM_cons, bind, Except.bind] at h
      cases hstep : add_one_project max_total strategy (st, stats) c with
      | error e => rw [hstep] at h; exact absurd h (by simp)
      | ok mid =>
          rw [hstep] at h
          obtain ⟨hsync2, hlen2, hsum2⟩ := step_preserves hsync hstep
          have hmid : List.foldlM (add_one_project max_total strategy)
              (mid.1, mid.2) cs = .ok outp := by
            simpa using h
          obtain ⟨hs3, hl3, hcap3, hsum3⟩ := fold_preserves cs hsync2 hmid
          refine ⟨hs3, ?_, ?_, ?_⟩
          · rcases hlen2 with heq | ⟨heq, -⟩ <;> omega
          · intro hcap
            apply hcap3
            rcases hlen2 with heq | ⟨heq, hlt⟩ <;> omega
          · simp only [List.length_cons]; omega

/-- If the final pool is still below capacity, every processed candidate's
name is in the final index, and the key set only grew. -/
theorem fold_keys_below {max_total : Nat} {strategy : String} :
    ∀ (cands : List Record) {st : CollectorState} {stats : Stats}
      {outp : CollectorState × Stats},
      SyncInv st →
      List.foldlM (add_one_project max_total strategy) (st, stats) cands
        = .ok outp →
      outp.1.existing_projects.length < max_total →
      (∀ k, dictContains st.existing_repos k = true →
        dictContains outp.1.existing_repos k = true) ∧
      (∀ c ∈ cands,
        dictContains outp.1.existing_repos c.name_with_owner = true)
  | [], st, stats, outp, hsync, h, hfin => by
      simp only [List.foldlM_nil, pure, Except.pure] at h
      obtain rfl : (st, stats) = outp := Except.ok.inj h
      exact ⟨fun k hk => hk, by simp⟩
  | c :: cs, st, stats, outp, hsync, h, hfin => by
      simp only [List.foldlM_cons, bind, Except.bind] at h
      cases hstep : add_one_project max_total strategy (st, stats) c with
      | error e => rw [hstep] at h; exact absurd h (by simp)
      | ok mid =>
          rw [hstep] at h
          obtain ⟨hsync2, hlen2, -⟩ := step_preserves hsync hstep
          have hmid : List.foldlM (add_one_project max_total strategy)
              (mid.1, mid.2) cs = .ok outp := by simpa using h
          obtain ⟨-, hmono, -, -⟩ := fold_preserves cs hsync2 hmid
          have hstlt : st.existing_projects.length < max_total := by
            rcases hlen2 with heq | ⟨heq, hlt⟩ <;> omega
          obtain ⟨hpres1, hcand1⟩ := step_keys_below hstlt hstep
          obtain ⟨hpres2, hrest⟩ := fold_keys_below cs hsync2 hmid hfin
          refine ⟨fun k hk => hpres2 k (hpres1 k hk), ?_⟩
          intro d hd
          rcases List.mem_cons.mp hd with rfl | hd
          · exact hpres2 _ hcand1
          · exact hrest d hd

/-- If every candidate is already present in the index, the fold succeeds,
leaves the pool list and the key set unchanged, and the `added` and
`replaced` counters untouched. -/
theorem fold_present {max_total : Nat} {strategy : String} :
    ∀ (cands : List Record) (st : CollectorState) (stats : Stats),
      (∀ c ∈ cands,
        dictContains st.existing_repos c.name_with_owner = true) →
      ∃ outp,
        List.foldlM (add_one_project max_total strategy) (st, stats) cands
          = .ok outp ∧
        outp.1.existing_projects = st.existing_projects ∧
        dictKeys outp.1.existing_repos = dictKeys st.existing_repos ∧
        outp.2.added = stats.added ∧ outp.2.replaced = stats.replaced
  | [], st, stats, hall =>
      ⟨(st, stats), by simp only [List.foldlM_nil, pure, Except.pure],
        rfl, rfl, rfl, rfl⟩
  | c :: cs, st, stats, hall => by
      have hc : dictContains st.existing_repos c.name_with_owner = true :=
        hall c (by simp)
      obtain ⟨mid, hstep⟩ :=
        @step_ok_of_present max_total strategy st stats c hc
      obtain ⟨hlist, hkeys, hadd, hrep, -⟩ := step_present hc hstep
      have hall2 : ∀ d ∈ cs,
          dictContains mid.1.existing_repos d.name_with_owner = true := by
        intro d hd
        rw [dictContains_eq_of_keys hkeys]
        exact hall d (by simp [hd])
      obtain ⟨outp, hfold, hl2, hk2, ha2, hr2⟩ :=
        fold_present cs mid.1 mid.2 hall2
      refine ⟨outp, ?_, by rw [hl2, hlist], by rw [hk2, hkeys],
        by rw [ha2, hadd], by rw [hr2, hrep]⟩
      simp only [List.foldlM_cons, bind, Except.bind, hstep]
      simpa using hfold

/-- At capacity (with a positive bound), the fold always succeeds, the pool
length stays fixed and nothing is counted as `added`. -/
theorem fold_at_capacity {max_total : Nat} {strategy : String} :
    ∀ (cands : List Record) (st : CollectorState) (stats : Stats),
      SyncInv st →
      max_total ≤ st.existing_projects.length → 0 < max_total →
      ∃ outp,
        List.foldlM (add_one_project max_total strategy) (st, stats) cands
          = .ok outp ∧
        outp.1.existing_projects.length = st.existing_projects.length ∧
        outp.2.added = stats.added
  | [], st, stats, hsync, hcap, hmt =>
      ⟨(st, stats), by simp only [List.foldlM_nil, pure, Except.pure],
        rfl, rfl⟩
  | c :: cs, st, stats, hsync, hcap, hmt => by
      have hne : st.existing_projects ≠ [] := by
        intro he
        rw [he] at hcap
        simp only [List.length_nil, Nat.le_zero] at hcap
        omega
      obtain ⟨mid, hstep⟩ :=
        @step_ok_of_ne_nil max_total strategy st stats c hsync hne
      obtain ⟨hsync2, hlen2, -⟩ := step_preserves hsync hstep
      have hlen : mid.1.existing_projects.length =
          st.existing_projects.length := by
        rcases hlen2 with heq | ⟨-, hlt⟩
        · exact heq
        · omega
      have hadd : mid.2.added = stats.added := by
        rcases step_added hstep with heq | ⟨-, hlt⟩
        · exact heq
        · omega
      obtain ⟨outp, hfold, hl2, ha2⟩ :=
        fold_at_capacity cs mid.1 mid.2 hsync2 (by omega) hmt
      refine ⟨outp, ?_, by rw [hl2, hlen], by rw [ha2, hadd]⟩
      simp only [List.foldlM_cons, bind, Except.bind, hstep]
      simpa using hfold

/-! ## Sorting and construction lemmas -/

theorem insertByStars_perm (r : Record) (l : List Record) :
    List.Perm (insertByStars r l) (r :: l) := by
  induction l with
  | nil => exact List.Perm.refl _
  | cons x xs ih =>
      simp only [insertByStars]
      by_cases h : x.stars < r.stars
      · rw [if_pos h]
      · rw [if_neg h]
        exact (ih.cons x).trans (List.Perm.swap r x xs)

theorem foldl_insertByStars_perm :
    ∀ (l acc : List Record),
      List.Perm (l.foldl (fun acc r => insertByStars r acc) acc) (l ++ acc)
  | [], acc => by simp
  | x :: xs, acc => by
      simp only [List.foldl_cons]
      refine (foldl_insertByStars_perm xs (insertByStars x acc)).trans ?_
      refine ((insertByStars_perm x acc).append_left xs).trans ?_
      exact List.perm_middle

theorem sortByStarsDesc_perm (l : List Record) :
    List.Perm (sortByStarsDesc l) l := by
  have := foldl_insertByStars_perm l []
  simpa [sortByStarsDesc] using this

theorem length_sortByStarsDesc (l : List Record) :
    (sortByStarsDesc l).length = l.length :=
  (sortByStarsDesc_perm l).length_eq

theorem sync_sort {st : CollectorState} (hsync : SyncInv st) :
    SyncInv { st with
      existing_projects := sortByStarsDesc st.existing_projects } := by
  obtain ⟨hnd, hkd, hks, hsk⟩ := hsync
  have hperm : List.Perm (namesOf (sortByStarsDesc st.existing_projects))
      (namesOf st.existing_projects) :=
    (sortByStarsDesc_perm st.existing_projects).map _
  refine ⟨hperm.nodup_iff.mpr hnd, hkd, ?_, ?_⟩
  · intro k hk
    exact hperm.mem_iff.mpr (hks k hk)
  · intro k hk
    exact hsk k (hperm.mem_iff.mp hk)

theorem dictContains_false_iff {d : List (String × Record)} {k : String} :
    dictContains d k = false ↔ k ∉ dictKeys d := by
  rw [Bool.eq_false_iff]
  exact not_congr dictContains_iff_mem

theorem dictKeys_build :
    ∀ (projects : List Record) (d : List (String × Record)),
      (∀ p ∈ projects, dictContains d p.name_with_owner = false) →
      (namesOf projects).Nodup →
      dictKeys (projects.foldl (fun d p => dictSet d p.name_with_owner p) d)
        = dictKeys d ++ namesOf projects
  | [], d, hfree, hnd => by simp [namesOf]
  | p :: ps, d, hfree, hnd => by
      have hp : dictContains d p.name_with_owner = false := hfree p (by simp)
      have hnd2 : (namesOf ps).Nodup := by
        have : namesOf (p :: ps) = p.name_with_owner :: namesOf ps := rfl
        rw [this] at hnd
        exact (List.nodup_cons.mp hnd).2
      have hpnot : p.name_with_owner ∉ namesOf ps := by
        have : namesOf (p :: ps) = p.name_with_owner :: namesOf ps := rfl
        rw [this] at hnd
        exact (List.nodup_cons.mp hnd).1
      have hkeys : dictKeys (dictSet d p.name_with_owner p)
          = dictKeys d ++ [p.name_with_owner] :=
        dictKeys_set_of_not_contains p hp
      have hfree2 : ∀ q ∈ ps,
          dictContains (dictSet d p.name_with_owner p) q.name_with_owner
            = false := by
        intro q hq
        rw [dictContains_false_iff, hkeys]
        intro hmem
        rcases List.mem_append.mp hmem with hmem | hmem
        · exact absurd (dictContains_false_iff.mp (hfree q (by simp [hq])))
            (by simp [hmem])
        · rw [List.mem_singleton] at hmem
          exact hpnot (hmem ▸ mem_namesOf hq)
      calc dictKeys ((p :: ps).foldl
              (fun d p => dictSet d p.name_with_owner p) d)
          = dictKeys (ps.foldl (fun d p => dictSet d p.name_with_owner p)
              (dictSet d p.name_with_owner p)) := by simp
        _ = dictKeys (dictSet d p.name_with_owner p) ++ namesOf ps :=
              dictKeys_build ps _ hfree2 hnd2
        _ = dictKeys d ++ namesOf (p :: ps) := by
              rw [hkeys, List.append_assoc]; rfl

/-- The constructor's derived index is synchronised with the pool whenever
the loaded pool has pairwise distinct names. -/
theorem initState_sync {projects : List Record}
    (hnd : (namesOf projects).Nodup) : SyncInv (initState projects) := by
  have hkeys : dictKeys ((initState projects).existing_repos)
      = namesOf projects := by
    have := dictKeys_build projects [] (fun p _ => rfl) hnd
    simpa [initState, dictKeys] using this
  refine ⟨hnd, ?_, ?_, ?_⟩ <;> rw [hkeys]
  · exact hnd
  · exact fun k hk => hk
  · exact fun k hk => hk

/-- Inversion for a successful `add_new_projects` call. -/
theorem addNew_inv {st : CollectorState} {cands : List Record}
    {max_total : Nat} {strategy : String} {st1 : CollectorState} {s1 : Stats}
    (h : add_new_projects st cands max_total strategy = .ok (st1, s1)) :
    ∃ outp, List.foldlM (add_one_project max_total strategy)
        (st, ⟨0, 0, 0, 0⟩) cands = .ok outp ∧
      st1 = { outp.1 with
        existing_projects := sortByStarsDesc outp.1.existing_projects } ∧
      s1 = outp.2 := by
  simp only [add_new_projects, bind, Except.bind] at h
  cases hf : List.foldlM (add_one_project max_total strategy)
      (st, ⟨0, 0, 0, 0⟩) cands with
  | error e => rw [hf] at h; exact absurd h (by simp)
  | ok outp =>
      rw [hf] at h
      have := Except.ok.inj h
      exact ⟨outp, rfl, (Prod.mk.injEq _ _ _ _).mp this |>.1.symm,
        (Prod.mk.injEq _ _ _ _).mp this |>.2.symm⟩

theorem addNew_of_fold {st : CollectorState} {cands : List Record}
    {max_total : Nat} {strategy : String} {outp : CollectorState × Stats}
    (hf : List.foldlM (add_one_project max_total strategy)
      (st, ⟨0, 0, 0, 0⟩) cands = .ok outp) :
    add_new_projects st cands max_total strategy =
      .ok ({ outp.1 with
        existing_projects := sortByStarsDesc outp.1.existing_projects },
        outp.2) := by
  simp only [add_new_projects, bind, Except.bind, hf]

/-- A successful `add_new_projects` call preserves synchronisation, never
shrinks the pool, respects the capacity bound, and classifies every
candidate into exactly one counter. -/
theorem addNew_preserves {st : CollectorState} {cands : List Record}
    {max_total : Nat} {strategy : String} {st1 : CollectorState} {s1 : Stats}
    (hsync : SyncInv st)
    (h : add_new_projects st cands max_total strategy = .ok (st1, s1)) :
    SyncInv st1 ∧
    st.existing_projects.length ≤ st1.existing_projects.length ∧
    (st.existing_projects.length ≤ max_total →
      st1.existing_projects.length ≤ max_total) ∧
    s1.added + s1.replaced + s1.skipped + s1.updated = cands.length := by
  obtain ⟨outp, hf, hst1, hs1⟩ := addNew_inv h
  obtain ⟨hsync2, hmono, hcap, hsum⟩ := fold_preserves cands hsync hf
  subst hst1 hs1
  refine ⟨sync_sort hsync2, ?_, ?_, by simpa using hsum⟩
  · simpa [length_sortByStarsDesc] using hmono
  · intro hle
    simpa [length_sortByStarsDesc] using hcap hle

/-! ## Claim C1: pool bound and dedup invariant across call sequences -/

/-- The invariant the spec requires of the pool: size bounded by the
configured maximum, and no two records sharing a `name_with_owner`. -/
def PoolBound (max_total : Nat) (st : CollectorState) : Prop :=
  st.existing_projects.length ≤ max_total ∧
  (namesOf st.existing_projects).Nodup

/-- A sequence of `add_new_projects` calls (candidate list and strategy per
call) on one collector; returns the state after each successful call,
stopping at the first raised exception. -/
def runCalls (max_total : Nat) :
    CollectorState → List (List Record × String) → List CollectorState
  | _, [] => []
  | st, (cands, strat) :: rest =>
    match add_new_projects st cands max_total strat with
    | .error _ => []
    | .ok (st2, _) => st2 :: runCalls max_total st2 rest

theorem runCalls_inv {max_total : Nat} :
    ∀ (calls : List (List Record × String)) (st : CollectorState),
      SyncInv st → st.existing_projects.length ≤ max_total →
      ∀ st2 ∈ runCalls max_total st calls,
        SyncInv st2 ∧ st2.existing_projects.length ≤ max_total
  | [], st, hsync, hle, st2, hmem => by simp [runCalls] at hmem
  | (cands, strat) :: rest, st, hsync, hle, st2, hmem => by
      simp only [runCalls] at hmem
      cases hcall : add_new_projects st cands max_total strat with
      | error e => rw [hcall] at hmem; simp at hmem
      | ok r =>
          rw [hcall] at hmem
          obtain ⟨hsync2, -, hcap, -⟩ := addNew_preserves hsync
            (by rw [hcall])
          rcases List.mem_cons.mp hmem with rfl | hmem2
          · exact ⟨hsync2, hcap hle⟩
          · exact runCalls_inv rest r.1 hsync2 (hcap hle) st2 hmem2

/-- C1 (invariants): starting from a pool of size at most `max_total` whose
records have pairwise distinct `name_with_owner` (with the constructor's
derived index), after every successful `add_new_projects` call of any call
sequence the pool size never exceeds `max_total` and no two records share a
`name_with_owner`. -/
theorem C1_pool_invariant (max_total : Nat) (projects : List Record)
    (calls : List (List Record × String))
    (hnd : (namesOf projects).Nodup)
    (hsz : projects.length ≤ max_total) :
    ∀ st2 ∈ runCalls max_total (initState projects) calls,
      PoolBound max_total st2 := by
  intro st2 hmem
  obtain ⟨hsync2, hle2⟩ := runCalls_inv calls (initState projects)
    (initState_sync hnd) hsz st2 hmem
  exact ⟨hle2, hsync2.1⟩

/-! Concrete records used by witnesses and counterexamples. -/

def recA5 : Record :=
  ⟨"alice/proj", 5, 1, 2, "2024-01-01T00:00:00", some "2025-09-01T00:00:00"⟩

def recA50 : Record :=
  ⟨"alice/proj", 50, 1, 2, "2024-03-01T00:00:00", some "2025-10-01T00:00:00"⟩

def recB10 : Record :=
  ⟨"bob/tool", 10, 0, 0, "2024-02-01T00:00:00", some "2025-10-01T00:00:00"⟩

def recC7 : Record :=
  ⟨"carol/lib", 7, 3, 1, "2024-04-01T00:00:00", none⟩

/-- Witness for C1 at a concrete input: one call that replaces the weakest
record of a full pool. -/
theorem C1_pool_invariant_witness :
    PoolBound 1 ⟨[recB10], [("bob/tool", recB10)]⟩ := by
  have happ := C1_pool_invariant 1 [recA5] [([recB10], "lowest_stars")]
    (by decide) (by decide)
  apply happ
  have : runCalls 1 (initState [recA5]) [([recB10], "lowest_stars")] =
      [⟨[recB10], [("bob/tool", recB10)]⟩] := by rfl
  rw [this]
  exact List.mem_singleton.mpr rfl

/-! ## Claim C2: eviction correctness at capacity -/

/-- Strict comparison under a strategy's metric (the key functions of
`_should_replace`): more stars, newer `updated_at`, or higher activity. -/
def stratLT (strategy : String) (a b : Record) : Prop :=
  if strategy = "lowest_stars" then a.stars < b.stars
  else if strategy = "oldest" then a.updated_at < b.updated_at
  else activity_score a < activity_score b

/-- Non-strict comparison under a strategy's metric. -/
def stratLE (strategy : String) (a b : Record) : Prop :=
  if strategy = "lowest_stars" then a.stars ≤ b.stars
  else if strategy = "oldest" then a.updated_at ≤ b.updated_at
  else activity_score a ≤ activity_score b

instance (strategy : String) (a b : Record) :
    Decidable (stratLT strategy a b) := by
  unfold stratLT
  split
  · infer_instance
  · split <;> infer_instance

instance (strategy : String) (a b : Record) :
    Decidable (stratLE strategy a b) := by
  unfold stratLE
  split
  · infer_instance
  · split <;> infer_instance

theorem capacity_eviction_core {β : Type} [LinearOrder β] (key : Record → β)
    {st : CollectorState} {max_total : Nat} {strategy : String}
    {cand : Record} {stats : Stats} {w : Record} {b : Bool}
    (hsync : SyncInv st)
    (hlen : ¬ st.existing_projects.length < max_total)
    (habs : dictContains st.existing_repos cand.name_with_owner = false)
    (hmin : pyMin key st.existing_projects = some w)
    (hsr : should_replace st.existing_projects cand strategy = .ok b)
    (hb : b = true ↔ key w < key cand)
    (hfind : find_project_to_replace st.existing_projects strategy = some w) :
    ∃ l1 l2,
      st.existing_projects = l1 ++ w :: l2 ∧
      (∀ y ∈ l1, key w < key y) ∧
      (∀ y ∈ st.existing_projects, key w ≤ key y) ∧
      (key w < key cand →
        add_one_project max_total strategy (st, stats) cand =
          .ok (⟨(l1 ++ l2) ++ [cand],
            dictSet (st.existing_repos.filter
              (fun p => !(p.1 == w.name_with_owner)))
              cand.name_with_owner cand⟩,
            { stats with replaced := stats.replaced + 1 })) ∧
      (¬ key w < key cand →
        add_one_project max_total strategy (st, stats) cand =
          .ok (st, { stats with skipped := stats.skipped + 1 })) := by
  obtain ⟨l1, l2, hsplit, hfirst, hminle⟩ := pyMin_split hmin
  have hwmem : w ∈ st.existing_projects := pyMin_mem hmin
  have hwk : dictContains st.existing_repos w.name_with_owner = true :=
    dictContains_iff_mem.mpr (hsync.2.2.2 _ (mem_namesOf hwmem))
  have herase : st.existing_projects.erase w = l1 ++ l2 := by
    rw [hsplit]
    exact erase_append_first l1 l2 w
      (fun y hy he => absurd (hfirst y hy) (by rw [he]; exact lt_irrefl _))
  refine ⟨l1, l2, hsplit, hfirst, hminle, ?_, ?_⟩
  · intro hbeats
    simp only [add_one_project, habs]
    rw [if_neg (by simp), if_neg hlen, hsr, hb.mpr hbeats]
    simp only [hfind, dictDel, hwk, if_true, pyListRemove, if_pos hwmem,
      bind, Except.bind, herase]
  · intro hbeats
    have hbf : b = false := by
      cases hbv : b
      · rfl
      · exact absurd (hb.mp hbv) hbeats
    simp only [add_one_project, habs]
    rw [if_neg (by simp), if_neg hlen, hsr, hbf]

/-- C2 (eviction correctness): for a pool exactly at a positive capacity and
a candidate whose name is absent, the pool splits as `l1 ++ w :: l2` where
`w` is the weakest record under the chosen strategy metric and every record
before it is strictly stronger (so `w` is the first weakest in pool order);
if the candidate strictly exceeds `w` under that metric the call evicts
exactly `w`, appends the candidate (also into the index) and counts it
`replaced`, otherwise it counts it `skipped` and leaves the pool unchanged. -/
theorem C2_eviction (st : CollectorState) (max_total : Nat)
    (strategy : String) (cand : Record) (stats : Stats)
    (hsync : SyncInv st)
    (hlen : st.existing_projects.length = max_total)
    (hmt : 0 < max_total)
    (hstrat : strategy = "lowest_stars" ∨ strategy = "oldest" ∨
      strategy = "lowest_activity")
    (habs : dictContains st.existing_repos cand.name_with_owner = false) :
    ∃ w l1 l2,
      st.existing_projects = l1 ++ w :: l2 ∧
      (∀ y ∈ l1, stratLT strategy w y) ∧
      (∀ y ∈ st.existing_projects, stratLE strategy w y) ∧
      (stratLT strategy w cand →
        add_one_project max_total strategy (st, stats) cand =
          .ok (⟨(l1 ++ l2) ++ [cand],
            dictSet (st.existing_repos.filter
              (fun p => !(p.1 == w.name_with_owner)))
              cand.name_with_owner cand⟩,
            { stats with replaced := stats.replaced + 1 })) ∧
      (¬ stratLT strategy w cand →
        add_one_project max_total strategy (st, stats) cand =
          .ok (st, { stats with skipped := stats.skipped + 1 })) := by
  have hne : st.existing_projects ≠ [] := by
    intro he
    rw [he] at hlen
    simp only [List.length_nil] at hlen
    omega
  have hnotlt : ¬ st.existing_projects.length < max_total := by omega
  have hnotempty : st.existing_projects.isEmpty = false := by
    cases hll : st.existing_projects with
    | nil => exact absurd hll hne
    | cons a as => simp
  rcases hstrat with rfl | rfl | rfl
  · cases hmin : pyMin (fun x => x.stars) st.existing_projects with
    | none => exact absurd ((pyMin_eq_none_iff _ _).mp hmin) hne
    | some w =>
        have hsr2 : should_replace st.existing_projects cand "lowest_stars"
            = .ok (decide (w.stars < cand.stars)) := by
          rw [should_replace_lowest_stars, hmin]
        have hb2 : (decide (w.stars < cand.stars) = true) ↔
            ((fun x : Record => x.stars) w <
              (fun x : Record => x.stars) cand) := by
          rw [decide_eq_true_eq]
        have hfind2 : find_project_to_replace st.existing_projects
            "lowest_stars" = some w := by
          rw [find_lowest_stars, hnotempty]; simp [hmin]
        obtain ⟨l1, l2, hsplit, hfirst, hminle, hrep, hskip⟩ :=
          capacity_eviction_core (fun x => x.stars) hsync hnotlt habs hmin
            hsr2 hb2 hfind2
        exact ⟨w, l1, l2, hsplit, hfirst, hminle, hrep, hskip⟩
  · cases hmin : pyMin (fun x => x.updated_at) st.existing_projects with
    | none => exact absurd ((pyMin_eq_none_iff _ _).mp hmin) hne
    | some w =>
        have hsr2 : should_replace st.existing_projects cand "oldest"
            = .ok (decide (w.updated_at < cand.updated_at)) := by
          rw [should_replace_oldest, hmin]
        have hb2 : (decide (w.updated_at < cand.updated_at) = true) ↔
            ((fun x : Record => x.updated_at) w <
              (fun x : Record => x.updated_at) cand) := by
          rw [decide_eq_true_eq]
        have hfind2 : find_project_to_replace st.existing_projects
            "oldest" = some w := by
          rw [find_oldest, hnotempty]; simp [hmin]
        obtain ⟨l1, l2, hsplit, hfirst, hminle, hrep, hskip⟩ :=
          capacity_eviction_core (fun x => x.updated_at) hsync hnotlt habs
            hmin hsr2 hb2 hfind2
        exact ⟨w, l1, l2, hsplit, hfirst, hminle, hrep, hskip⟩
  · cases hmin : pyMin activity_score st.existing_projects with
    | none => exact absurd ((pyMin_eq_none_iff _ _).mp hmin) hne
    | some w =>
        have hsr2 : should_replace st.existing_projects cand
            "lowest_activity"
            = .ok (decide (activity_score w < activity_score cand)) := by
          rw [should_replace_lowest_activity, hmin]
        have hb2 : (decide (activity_score w < activity_score cand) = true) ↔
            (activity_score w < activity_score cand) := by
          rw [decide_eq_true_eq]
        have hfind2 : find_project_to_replace st.existing_projects
            "lowest_activity" = some w := by
          rw [find_lowest_activity, hnotempty]; simp [hmin]
        obtain ⟨l1, l2, hsplit, hfirst, hminle, hrep, hskip⟩ :=
          capacity_eviction_core activity_score hsync hnotlt habs hmin
            hsr2 hb2 hfind2
        exact ⟨w, l1, l2, hsplit, hfirst, hminle, hrep, hskip⟩

/-- Witness for C2 at a concrete input: pool `[bob/tool (10★),
alice/proj (5★)]` at capacity 2, candidate `carol/lib (7★)` beats the
weakest record and replaces exactly it. -/
theorem C2_eviction_witness :
    add_one_project 2 "lowest_stars"
      (initState [recB10, recA5], ⟨0, 0, 0, 0⟩) recC7 =
      .ok (⟨[recB10, recC7],
        [("bob/tool", recB10), ("carol/lib", recC7)]⟩, ⟨0, 1, 0, 0⟩) := by
  obtain ⟨w, l1, l2, hsplit, hfirst, hminle, hrep, hskip⟩ :=
    C2_eviction (initState [recB10, recA5]) 2 "lowest_stars" recC7
      ⟨0, 0, 0, 0⟩ (by decide) (by decide) (by decide) (Or.inl rfl)
      (by decide)
  rcases l1 with - | ⟨a, l1⟩
  · obtain ⟨hw, -⟩ : recB10 = w ∧ [recA5] = l2 := by simpa [initState] using hsplit
    exact absurd (hminle recA5 (by decide)) (by rw [← hw]; decide)
  · obtain ⟨ha, hsplit2⟩ : recB10 = a ∧ [recA5] = l1 ++ w :: l2 := by
      simpa [initState] using hsplit
    rcases l1 with - | ⟨b, l1⟩
    · obtain ⟨hw, hl2⟩ : recA5 = w ∧ [] = l2 := by simpa using hsplit2
      subst ha hw hl2
      exact hrep (by decide)
    · exfalso
      have := congrArg List.length hsplit2
      simp at this

/-! ## Claim C3: in-place update of an existing record is not persisted -/

/-- C3 (code bug evaluation): a candidate whose name is already pooled and
whose star count changed (5★ → 50★) is counted `updated` and written into
the `existing_repos` index, but the `existing_projects` list — the list
that is re-sorted and persisted at the end of the call — still holds the
stale 5★ record; the candidate's new values never reach the persisted
pool. -/
theorem C3_update_not_persisted :
    add_new_projects (initState [recA5]) [recA50] 10 "lowest_stars" =
      .ok (⟨[recA5], [("alice/proj", recA50)]⟩, ⟨0, 0, 0, 1⟩) ∧
    recA50 ∉ [recA5] :=
  ⟨rfl, by decide⟩

/-! ## Claim C10: empty pool with `max_total = 0` raises `ValueError` -/

/-- C10 (implicit safety): on an empty pool with `max_total = 0`, every
candidate is absent and falls into the at-capacity branch, whose
`min(self.existing_projects, ...)` call raises `ValueError` for each of the
three recognised strategies, so the call raises instead of counting the
candidate as `skipped`. -/
theorem C10_empty_pool_value_error (strategy : String) (cands : List Record)
    (hstrat : strategy = "lowest_stars" ∨ strategy = "oldest" ∨
      strategy = "lowest_activity")
    (hne : cands ≠ []) :
    add_new_projects (initState []) cands 0 strategy = .error .valueError := by
  cases cands with
  | nil => exact absurd rfl hne
  | cons c cs =>
      have hstep : add_one_project 0 strategy
          (initState [], (⟨0, 0, 0, 0⟩ : Stats)) c = .error .valueError := by
        rcases hstrat with rfl | rfl | rfl <;> rfl
      simp only [add_new_projects, List.foldlM_cons, bind, Except.bind, hstep]

theorem C10_empty_pool_value_error_witness :
    add_new_projects (initState []) [recB10] 0 "lowest_stars" =
      .error .valueError :=
  C10_empty_pool_value_error "lowest_stars" [recB10] (Or.inl rfl) (by decide)

/-! ## Claim C9: repeating the same candidate list -/

/-- Counterexample to C9 as stated: pool `[alice/proj (5★)]`, capacity 1,
candidates `[alice/proj (50★), bob/tool (10★)]`.  The first call counts the
50★ update only into the index, then `bob/tool` evicts the stale 5★ list
record.  The second, identical call finds `alice/proj` absent again and
counts it `replaced` — so the second call returns `replaced = 1`, not 0. -/
theorem C9_counterexample :
    add_new_projects (initState [recA5]) [recA50, recB10] 1 "lowest_stars" =
      .ok (⟨[recB10], [("bob/tool", recB10)]⟩, ⟨0, 1, 0, 1⟩) ∧
    add_new_projects ⟨[recB10], [("bob/tool", recB10)]⟩ [recA50, recB10] 1
      "lowest_stars" =
      .ok (⟨[recA50], [("alice/proj", recA50)]⟩, ⟨0, 1, 1, 0⟩) ∧
    (⟨0, 1, 1, 0⟩ : Stats).replaced ≠ 0 :=
  ⟨rfl, rfl, by decide⟩

/-- C9 amended: calling `add_new_projects` twice in immediate succession
with the same candidate list (positive capacity, synchronised start state)
makes the second call succeed with `added = 0`, every candidate counted as
`updated`, `skipped` or `replaced` (`replaced` can be nonzero, see the
counterexample), and no growth of the pool. -/
theorem C9_second_call_no_growth (st0 : CollectorState) (cands : List Record)
    (max_total : Nat) (strategy : String) (st1 : CollectorState) (s1 : Stats)
    (hsync : SyncInv st0) (hmt : 0 < max_total)
    (h1 : add_new_projects st0 cands max_total strategy = .ok (st1, s1)) :
    ∃ st2 s2,
      add_new_projects st1 cands max_total strategy = .ok (st2, s2) ∧
      s2.added = 0 ∧
      s2.updated + s2.skipped + s2.replaced = cands.length ∧
      st2.existing_projects.length = st1.existing_projects.length := by
  obtain ⟨outp, hf, hst1, hs1⟩ := addNew_inv h1
  obtain ⟨hsyncout, -, -, -⟩ := fold_preserves cands hsync hf
  have hsync1 : SyncInv st1 := by rw [hst1]; exact sync_sort hsyncout
  by_cases hcap : max_total ≤ st1.existing_projects.length
  · obtain ⟨outp2, hf2, hlen2, hadd2⟩ :=
      fold_at_capacity cands st1 ⟨0, 0, 0, 0⟩ hsync1 hcap hmt
    obtain ⟨-, -, -, hsum2⟩ := fold_preserves cands hsync1 hf2
    have ha0 : outp2.2.added = 0 := by simpa using hadd2
    refine ⟨_, outp2.2, addNew_of_fold hf2, ha0, ?_, ?_⟩
    · have hsum : outp2.2.added + outp2.2.replaced + outp2.2.skipped +
          outp2.2.updated = cands.length := by simpa using hsum2
      omega
    · simp [length_sortByStarsDesc, hlen2]
  · push_neg at hcap
    have hlenout : outp.1.existing_projects.length < max_total := by
      have heq : st1.existing_projects.length =
          outp.1.existing_projects.length := by
        rw [hst1]; simp [length_sortByStarsDesc]
      omega
    obtain ⟨-, hall⟩ := fold_keys_below cands hsync hf hlenout
    have hall1 : ∀ c ∈ cands,
        dictContains st1.existing_repos c.name_with_owner = true := by
      intro c hc
      have : st1.existing_repos = outp.1.existing_repos := by rw [hst1]
      rw [this]
      exact hall c hc
    obtain ⟨outp2, hf2, hlist2, hkeys2, hadd2, hrep2⟩ :=
      fold_present cands st1 ⟨0, 0, 0, 0⟩ hall1
    obtain ⟨-, -, -, hsum2⟩ := fold_preserves cands hsync1 hf2
    have ha0 : outp2.2.added = 0 := by simpa using hadd2
    have hr0 : outp2.2.replaced = 0 := by simpa using hrep2
    refine ⟨_, outp2.2, addNew_of_fold hf2, ha0, ?_, ?_⟩
    · have hsum : outp2.2.added + outp2.2.replaced + outp2.2.skipped +
          outp2.2.updated = cands.length := by simpa using hsum2
      omega
    · simp [length_sortByStarsDesc, hlist2]

/-- Witness for the amended C9 at a concrete input. -/
theorem C9_second_call_no_growth_witness :
    ∃ st2 s2,
      add_new_projects ⟨[recB10], [("bob/tool", recB10)]⟩ [recB10] 1
        "lowest_stars" = .ok (st2, s2) ∧
      s2.added = 0 ∧
      s2.updated + s2.skipped + s2.replaced = 1 ∧
      st2.existing_projects.length = 1 := by
  have happ := C9_second_call_no_growth (initState [recA5]) [recB10] 1
    "lowest_stars" ⟨[recB10], [("bob/tool", recB10)]⟩ ⟨0, 1, 0, 0⟩
    (by decide) (by decide) rfl
  simpa using happ

/-! ## Claim C5: loading the pool file -/

/-- Outcome of reading and JSON-parsing the pool file at `self.data_file`:
the path may not exist, `open`/`json.load` may raise, or a record list is
parsed. -/
inductive PoolFile where
  | missing
  | unreadable
  | parsed (data : List Record)
  deriving Repr, DecidableEq

/-- `IncrementalProjectCollector._load_existing_projects`
(`incremental_collector.py` lines 40-53): if the path exists the parse is
attempted and *any* exception is caught, logged, and turned into `[]`
(lines 48-50); a missing path also yields `[]`.  No error value exists in
this code — the return type is always a plain record list. -/
def load_existing_projects : PoolFile → List Record
  | .missing => []
  | .unreadable => []
  | .parsed data => data

/-- Counterexample to C5 as stated: an unreadable/corrupt pool file is
silently turned into the same empty pool as a missing file; no
`CorruptPoolError` (which exists nowhere in the code) reaches the caller. -/
theorem C5_counterexample :
    load_existing_projects .unreadable = ([] : List Record) ∧
    load_existing_projects .missing = ([] : List Record) :=
  ⟨rfl, rfl⟩

/-- C5 amended: loading never signals an error; it returns the empty pool
exactly when the file is missing, unreadable, or holds an empty list —
so a corrupt pool file is indistinguishable from a missing one. -/
theorem C5_load_never_errors (f : PoolFile) :
    load_existing_projects f = [] ↔
      (f = .missing ∨ f = .unreadable ∨ f = .parsed []) := by
  cases f <;> simp [load_existing_projects]

/-! ## Claim C7: loading a checkpoint -/

/-- Minimal JSON value model for decoded checkpoint contents. -/
inductive Json where
  | obj (fields : List (String × Json))
  | arr (elems : List Json)
  | str (s : String)
  | num (n : Int)
  | null

/-- Python `j["k"]` on a decoded JSON value: `KeyError` on an object
without the key, `TypeError` when subscripting a non-object with a string
key. -/
def getItem : Json → String → Except PyErr Json
  | .obj fields, k =>
      match fields.find? (fun p => p.1 == k) with
      | some p => .ok p.2
      | none => .error .keyError
  | _, _ => .error .typeError

/-- Python `j.get(k, default)`: only dict values have `.get`; anything
else raises `AttributeError`. -/
def pyGet : Json → String → Json → Except PyErr Json
  | .obj fields, k, dflt =>
      .ok ((fields.find? (fun p => p.1 == k)).elim dflt (fun p => p.2))
  | _, _, _ => .error .attributeError

/-- State of the checkpoint file for one task id. -/
inductive CkptFile where
  | missing
  | unreadable
  | decoded (j : Json)

/-- `CursorManager.load_checkpoint` (`cursor_manager.py` lines 50-77): a
missing file returns `None`; `open`/`json.load` failures are caught by
`except (json.JSONDecodeError, IOError)` and return `None`; but before
returning, line 70 evaluates `checkpoint['progress'].get('count', 0)` and
line 71 `checkpoint.get('timestamp', 'unknown')` inside the `try`, and the
`KeyError`/`TypeError`/`AttributeError` these raise on a decoded value of
the wrong shape are *not* in the except tuple, so they escape to the
caller. -/
def load_checkpoint : CkptFile → Except PyErr (Option Json)
  | .missing => .ok none
  | .unreadable => .ok none
  | .decoded j => do
      let progress ← getItem j "progress"
      let _ ← pyGet progress "count" (.num 0)
      let _ ← pyGet j "timestamp" (.str "unknown")
      .ok (some j)

/-- Counterexample to C7 as stated: a checkpoint file holding the valid
JSON object `{"task_id": "t"}` — corrupt data for a checkpoint, since the
`progress` field is missing — makes `load_checkpoint` raise `KeyError`
instead of returning `None`. -/
theorem C7_counterexample :
    load_checkpoint (.decoded (.obj [("task_id", .str "t")])) =
      .error .keyError := rfl

/-- The shapes `load_checkpoint` can digest without raising: a JSON object
whose `progress` field is itself an object. -/
def wellFormedCkpt : Json → Bool
  | .obj fields =>
      match fields.find? (fun p => p.1 == "progress") with
      | some p =>
          match p.2 with
          | .obj _ => true
          | _ => false
      | none => false
  | _ => false

/-- C7 amended: a missing file, or one whose bytes fail reading or JSON
decoding, yields `None` without raising; but a file that decodes to a
value without an object-valued `progress` field raises an uncaught
exception to the caller. -/
theorem C7_corrupt_checkpoint (f : CkptFile) :
    (f = .missing → load_checkpoint f = .ok none) ∧
    (f = .unreadable → load_checkpoint f = .ok none) ∧
    (∀ j, f = .decoded j →
      (wellFormedCkpt j = true → load_checkpoint f = .ok (some j)) ∧
      (wellFormedCkpt j = false → ∃ e, load_checkpoint f = .error e)) := by
  refine ⟨fun h => by rw [h]; rfl, fun h => by rw [h]; rfl, ?_⟩
  rintro j rfl
  cases j with
  | obj fields =>
      cases hfind : fields.find? (fun p => p.1 == "progress") with
      | none =>
          constructor
          · intro hwf
            simp [wellFormedCkpt, hfind] at hwf
          · intro hwf
            exact ⟨.keyError, by
              simp only [load_checkpoint, getItem, hfind, bind, Except.bind]⟩
      | some p =>
          cases hp : p.2 with
          | obj pf =>
              constructor
              · intro hwf
                simp [load_checkpoint, getItem, hfind, hp, bind,
                  Except.bind, pyGet]
              · intro hwf
                simp [wellFormedCkpt, hfind, hp] at hwf
          | arr es =>
              constructor
              · intro hwf
                simp [wellFormedCkpt, hfind, hp] at hwf
              · intro hwf
                exact ⟨.attributeError, by
                  simp [load_checkpoint, getItem, hfind, hp, bind,
                    Except.bind, pyGet]⟩
          | str s =>
              constructor
              · intro hwf
                simp [wellFormedCkpt, hfind, hp] at hwf
              · intro hwf
                exact ⟨.attributeError, by
                  simp [load_checkpoint, getItem, hfind, hp, bind,
                    Except.bind, pyGet]⟩
          | num n =>
              constructor
              · intro hwf
                simp [wellFormedCkpt, hfind, hp] at hwf
              · intro hwf
                exact ⟨.attributeError, by
                  simp [load_checkpoint, getItem, hfind, hp, bind,
                    Except.bind, pyGet]⟩
          | null =>
              constructor
              · intro hwf
                simp [wellFormedCkpt, hfind, hp] at hwf
              · intro hwf
                exact ⟨.attributeError, by
                  simp [load_checkpoint, getItem, hfind, hp, bind,
                    Except.bind, pyGet]⟩
  | arr es => exact ⟨fun h => by simp [wellFormedCkpt] at h,
      fun h => ⟨.typeError, rfl⟩⟩
  | str s => exact ⟨fun h => by simp [wellFormedCkpt] at h,
      fun h => ⟨.typeError, rfl⟩⟩
  | num n => exact ⟨fun h => by simp [wellFormedCkpt] at h,
      fun h => ⟨.typeError, rfl⟩⟩
  | null => exact ⟨fun h => by simp [wellFormedCkpt] at h,
      fun h => ⟨.typeError, rfl⟩⟩

/-- Witness for the amended C7: a well-formed checkpoint object round-trips
and a missing file reads as `None`. -/
theorem C7_corrupt_checkpoint_witness :
    load_checkpoint (.decoded (.obj [("progress", .obj [])])) =
      .ok (some (.obj [("progress", .obj [])])) ∧
    load_checkpoint .missing = .ok none := by
  constructor
  · exact ((C7_corrupt_checkpoint
      (.decoded (.obj [("progress", .obj [])]))).2.2 _ rfl).1 (by decide)
  · exact (C7_corrupt_checkpoint .missing).1 rfl

/-! ## Claim C8: refresh-loop behaviour on failures -/

/-- Outcome of the REST call `GET /repos/{name}` made by
`update_project_stats`: 404, 403 (rate limit), another HTTP error (turned
into an exception by `raise_for_status` and caught by the enclosing
`except`), or a refreshed record. -/
inductive ApiResp where
  | notFound
  | rateLimited
  | httpError
  | refreshed (r : Record)
  deriving Repr, DecidableEq

/-- `IncrementalProjectCollector.update_project_stats`
(`incremental_collector.py` lines 83-126): a 404 returns `None`
(lines 89-91), a 403 rate limit prints a warning and returns `None`
(lines 93-96), any other failure is caught and returns `None`
(lines 124-126); only a success returns the rebuilt record.  The caller
cannot distinguish a rate limit from any other failure. -/
def update_project_stats (api : String → ApiResp) (project_name : String) :
    Option Record :=
  match api project_name with
  | .notFound => none
  | .rateLimited => none
  | .httpError => none
  | .refreshed r => some r

/-- The staleness test of `refresh_stale_projects` (lines 143-150):
no `last_stats_update`, or one before the cutoff (ISO-8601 timestamps
compare like strings). -/
def isStale (cutoff : String) (p : Record) : Bool :=
  match p.last_stats_update with
  | none => true
  | some d => decide (d < cutoff)

/-- `IncrementalProjectCollector.refresh_stale_projects`
(`incremental_collector.py` lines 128-180), instrumented with the ordered
list of names for which a refresh request is issued.  The `for` loop body
(lines 160-170) continues to the next stale record whatever
`update_project_stats` returned — including after a rate limit.  If no
record is stale the method returns 0 before touching the pool
(lines 154-156); otherwise the list is regenerated from the index values,
re-sorted and persisted (lines 172-177), and the success count returned. -/
def refresh_stale_projects (api : String → ApiResp) (cutoff : String)
    (st : CollectorState) : List String × Nat × CollectorState :=
  let stale := st.existing_projects.filter (isStale cutoff)
  if stale.isEmpty then ([], 0, st)
  else
    let r := stale.foldl
      (fun (acc : List String × Nat × List (String × Record)) project =>
        match update_project_stats api project.name_with_owner with
        | some updated =>
            (acc.1 ++ [project.name_with_owner], acc.2.1 + 1,
              dictSet acc.2.2 project.name_with_owner updated)
        | none => (acc.1 ++ [project.name_with_owner], acc.2.1, acc.2.2))
      ([], 0, st.existing_repos)
    (r.1, r.2.1, ⟨sortByStarsDesc (r.2.2.map Prod.snd), r.2.2⟩)

def recD3 : Record :=
  ⟨"dave/app", 3, 0, 0, "2024-05-01T00:00:00", none⟩

def recD9 : Record :=
  ⟨"dave/app", 9, 2, 0, "2024-06-01T00:00:00", some "2025-10-10T00:00:00"⟩

/-- A data source that rate-limits the refresh of `carol/lib` and
refreshes `dave/app` normally. -/
def apiC8 : String → ApiResp := fun name =>
  if name == "carol/lib" then .rateLimited else .refreshed recD9

/-- Counterexample to C8 as stated: both pooled records are stale; the
refresh of the first (`carol/lib`) hits the rate limit, yet a refresh
request is still issued for the second (`dave/app`) — the request log is
`["carol/lib", "dave/app"]`, not `["carol/lib"]` — and the call returns 1,
the count of successful refreshes over the whole batch, not the count
completed before the rate limit (0). -/
theorem C8_counterexample :
    apiC8 "carol/lib" = .rateLimited ∧
    (refresh_stale_projects apiC8 "2026-01-01T00:00:00"
      (initState [recC7, recD3])).1 = ["carol/lib", "dave/app"] ∧
    (refresh_stale_projects apiC8 "2026-01-01T00:00:00"
      (initState [recC7, recD3])).2.1 = 1 :=
  ⟨rfl, rfl, rfl⟩

theorem refresh_foldl_spec (api : String → ApiResp) :
    ∀ (stale : List Record) (log0 : List String) (n0 : Nat)
      (d0 : List (String × Record)),
      (stale.foldl
        (fun (acc : List String × Nat × List (String × Record)) project =>
          match update_project_stats api project.name_with_owner with
          | some updated =>
              (acc.1 ++ [project.name_with_owner], acc.2.1 + 1,
                dictSet acc.2.2 project.name_with_owner updated)
          | none => (acc.1 ++ [project.name_with_owner], acc.2.1, acc.2.2))
        (log0, n0, d0)).1 = log0 ++ stale.map Record.name_with_owner ∧
      (stale.foldl
        (fun (acc : List String × Nat × List (String × Record)) project =>
          match update_project_stats api project.name_with_owner with
          | some updated =>
              (acc.1 ++ [project.name_with_owner], acc.2.1 + 1,
                dictSet acc.2.2 project.name_with_owner updated)
          | none => (acc.1 ++ [project.name_with_owner], acc.2.1, acc.2.2))
        (log0, n0, d0)).2.1 =
        n0 + (stale.filter
          (fun p => (update_project_stats api p.name_with_owner).isSome)).length
  | [], log0, n0, d0 => by simp
  | p :: ps, log0, n0, d0 => by
      cases hu : update_project_stats api p.name_with_owner with
      | some updated =>
          have ih := refresh_foldl_spec api ps
            (log0 ++ [p.name_with_owner]) (n0 + 1)
            (dictSet d0 p.name_with_owner updated)
          simp only [List.foldl_cons, hu]
          refine ⟨?_, ?_⟩
          · rw [ih.1 ]
            simp
          · rw [ih.2 ]
            simp [List.filter_cons, hu]
            omega
      | none =>
          have ih := refresh_foldl_spec api ps
            (log0 ++ [p.name_with_owner]) n0 d0
          simp only [List.foldl_cons, hu]
          refine ⟨?_, ?_⟩
          · rw [ih.1 ]
            simp
          · rw [ih.2 ]
            simp [List.filter_cons, hu]

/-- C8 amended: a rate-limit response during a single record's refresh
does not abort the batch — it is treated like any other failed refresh.
A refresh request is issued for every stale record, in pool order, and
the returned count is the number of successful refreshes over the whole
batch. -/
theorem C8_refresh_continues (api : String → ApiResp) (cutoff : String)
    (st : CollectorState) :
    (refresh_stale_projects api cutoff st).1 =
      (st.existing_projects.filter (isStale cutoff)).map
        Record.name_with_owner ∧
    (refresh_stale_projects api cutoff st).2.1 =
      ((st.existing_projects.filter (isStale cutoff)).filter
        (fun p =>
          (update_project_stats api p.name_with_owner).isSome)).length := by
  simp only [refresh_stale_projects]
  by_cases he : (st.existing_projects.filter (isStale cutoff)).isEmpty
  · rw [if_pos he]
    have : st.existing_projects.filter (isStale cutoff) = [] :=
      List.isEmpty_iff.mp he
    rw [this]
    exact ⟨rfl, rfl⟩
  · rw [if_neg he]
    have hspec := refresh_foldl_spec api
      (st.existing_projects.filter (isStale cutoff)) [] 0 st.existing_repos
    exact ⟨by rw [hspec.1]; simp, by rw [hspec.2]; omega⟩

/-! ## Claims C4 and C6: `collect_with_resume` over the paginated source -/

/-- One page of the GraphQL search result: the flattened repository items
(abstracted to identifiers), plus the `endCursor` and `hasNextPage` of
`pageInfo`. -/
structure Page where
  repos : List Nat
  endCursor : Option String
  hasNextPage : Bool
  deriving Repr, DecidableEq

/-- The paginated source behind `GitHubGraphQLClient.search_repositories`
(`graphql_client.py` lines 75-162): for each cursor either a page, or
`none` for a failed request / GraphQL error (the method returns Python
`None` then). -/
structure Source where
  fetch : Option String → Option Page

/-- A saved checkpoint for one task: the `cursor` string and the
`progress["count"]` integer (`cursor_manager.py` lines 37-47). -/
structure Checkpoint where
  cursor : String
  count : Int
  deriving Repr, DecidableEq

/-- The `while True` pagination loop of
`GitHubGraphQLClient.fetch_all_repositories` (`graphql_client.py` lines
204-274), with the checkpoint-saving callback threaded as explicit state.
`fuel` bounds the number of iterations (the claims below use sources with
finite page chains).  A failed batch prints and breaks, returning the
repositories accumulated so far (lines 208-210); the callback fires only
for a truthy (non-`None`, nonempty) `endCursor` (line 261); the loop then
stops on `hasNextPage` false, or on a truthy `max_results` already
reached (lines 265-271). -/
def fetch_loop (src : Source) (mrEff : Option Int)
    (save : Option Checkpoint → String → Int → Option Checkpoint) :
    Nat → Option String → List Nat → Int → Option Checkpoint →
      List Nat × Option Checkpoint
  | 0, _, acc, _, ck => (acc, ck)
  | fuel + 1, cursor, acc, total, ck =>
      match src.fetch cursor with
      | none => (acc, ck)
      | some page =>
          let acc2 := acc ++ page.repos
          let total2 := total + (page.repos.length : Int)
          let ck2 :=
            match page.endCursor with
            | none => ck
            | some s => if s = "" then ck else save ck s total2
          if !page.hasNextPage then (acc2, ck2)
          else
            match mrEff with
            | some m =>
                if m ≠ 0 ∧ m ≤ total2 then (acc2, ck2)
                else fetch_loop src mrEff save fuel page.endCursor acc2
                  total2 ck2
            | none =>
                fetch_loop src mrEff save fuel page.endCursor acc2 total2 ck2

/-- `GitHubGraphQLClient.fetch_all_repositories` (lines 164-280): an
initial probe for `repositoryCount` — whose failure returns `[]` (lines
190-193) — then the pagination loop from cursor `None`. -/
def fetch_all_repositories (src : Source) (mrEff : Option Int)
    (save : Option Checkpoint → String → Int → Option Checkpoint)
    (fuel : Nat) (ck : Option Checkpoint) :
    List Nat × Option Checkpoint :=
  match src.fetch none with
  | none => ([], ck)
  | some _ => fetch_loop src mrEff save fuel none [] 0 ck

/-- The remaining-target expression of `cursor_manager.py` line 200:
`max_results - start_count if max_results else None`.  The condition tests
the *original* `max_results` (`None` and `0` are falsy); the difference is
not clamped, so it can be `0` (meaning "no limit" downstream) or
negative. -/
def effective_max_results (max_results : Option Int) (start_count : Int) :
    Option Int :=
  match max_results with
  | none => none
  | some m => if m = 0 then none else some (m - start_count)

/-- `IncrementalCollector.collect_with_resume` (`cursor_manager.py` lines
152-212), with the checkpoint store for the task given as a well-formed
`Option Checkpoint`.  The saved count offsets `max_results`; the saved
cursor is loaded into `start_cursor` but never passed to the fetcher.  The
callback (lines 184-194) saves a checkpoint whenever the cumulative count
is a multiple of the interval.  After fetching, the checkpoint is cleared
whenever the returned list is nonempty — `if repos:` (lines 207-209). -/
def collect_with_resume (src : Source) (ck0 : Option Checkpoint)
    (max_results : Option Int) (checkpoint_interval : Int) (fuel : Nat) :
    List Nat × Option Checkpoint :=
  let start_count : Int :=
    match ck0 with
    | some c => c.count
    | none => 0
  let save := fun (st : Option Checkpoint) (cursor : String) (count : Int) =>
    if (start_count + count) % checkpoint_interval = 0 then
      some ⟨cursor, start_count + count⟩
    else st
  let r := fetch_all_repositories src
    (effective_max_results max_results start_count) save fuel ck0
  if r.1.isEmpty then r else (r.1, none)

/-- A source whose first page succeeds with two items and whose second
page fetch fails. -/
def srcC4 : Source :=
  ⟨fun cursor =>
    match cursor with
    | none => some ⟨[1, 2], some "c1", true⟩
    | some _ => none⟩

/-- C4 (code bug evaluation): a resumed task (checkpoint count 4, target
10) fetches one page of two items — saving a fresh checkpoint at count 6 —
then the next page fetch fails and the loop stops.  Because the partial
result list is nonempty, `if repos:` still clears the checkpoint: the
final store is `none`, although the task did not complete. -/
theorem C4_checkpoint_cleared_after_failure :
    srcC4.fetch (some "c1") = none ∧
    fetch_all_repositories srcC4 (some 6)
      (fun st cursor count =>
        if (4 + count) % 2 = 0 then some ⟨cursor, 4 + count⟩ else st)
      5 (some ⟨"c0", 4⟩) = ([1, 2], some ⟨"c1", 6⟩) ∧
    collect_with_resume srcC4 (some ⟨"c0", 4⟩) (some 10) 2 5 =
      ([1, 2], none) :=
  ⟨rfl, rfl, rfl⟩

/-- A source with two successful pages (two items each) and no third. -/
def srcC6 : Source :=
  ⟨fun cursor =>
    match cursor with
    | none => some ⟨[1, 2], some "c1", true⟩
    | some s => if s = "c1" then some ⟨[3, 4], none, false⟩ else none⟩

/-- C6 (code bug evaluation): the effective target passed to the fetcher
is the unclamped difference `max_results - count`: it is negative when the
checkpointed count exceeds `max_results`, and exactly `0` when they are
equal — and a `0` limit is falsy downstream, so the fetcher treats it as
"no limit": resuming with count 2 and `max_results = 2` fetches all four
available items instead of requesting nothing. -/
theorem C6_target_not_clamped :
    effective_max_results (some 1000) 1500 = some (-500) ∧
    effective_max_results (some 500) 500 = some 0 ∧
    collect_with_resume srcC6 (some ⟨"c0", 2⟩) (some 2) 1000 5 =
      ([1, 2, 3, 4], none) :=
  ⟨rfl, rfl, rfl⟩
